import Mathlib

/-!
Shallow embedding of the dustman browser extension's decision engine
(`src/background.js`): the pure function `tabsToClose` (lines 135-184),
the predicate `saveableTab` (lines 191-206), and the history-accumulation
step of `autoclose` (lines 232-244).

JavaScript numbers that can be absent or non-finite (the `lastAccessed`
field of a tab) are modelled by `JsNum`; finite timestamps are integers
(every value in the documented domain is far below 2^53, so float
rounding plays no role).  Comparison and arithmetic on `JsNum` follow
ECMAScript semantics: `undefined` coerces to NaN, every comparison
involving NaN is false, and NaN is absorbing for addition.
-/

/-- A JavaScript number-or-undefined value, as needed for `tab.lastAccessed`. -/
inductive JsNum where
  | undef
  | nan
  | posInf
  | finite (n : ℤ)
deriving DecidableEq

/-- ECMAScript ToNumber as it acts on our value domain: `undefined` becomes NaN. -/
def JsNum.toNumber : JsNum → JsNum
  | .undef => .nan
  | x => x

/-- The ECMAScript `<` comparison on our value domain (false whenever NaN is involved). -/
def jsLt (a b : JsNum) : Bool :=
  match a.toNumber, b.toNumber with
  | .undef, _ => false
  | _, .undef => false
  | .nan, _ => false
  | _, .nan => false
  | .posInf, _ => false
  | .finite _, .posInf => true
  | .finite x, .finite y => decide (x < y)

/-- The ECMAScript `>` comparison: `a > b` is evaluated as `b < a`. -/
def jsGt (a b : JsNum) : Bool := jsLt b a

/-- The ECMAScript `>=` comparison (false whenever NaN is involved). -/
def jsGe (a b : JsNum) : Bool :=
  match a.toNumber, b.toNumber with
  | .undef, _ => false
  | _, .undef => false
  | .nan, _ => false
  | _, .nan => false
  | .posInf, _ => true
  | .finite _, .posInf => false
  | .finite x, .finite y => decide (y ≤ x)

/-- JavaScript addition of a (possibly undefined) value and a finite number. -/
def jsAddInt (a : JsNum) (m : ℤ) : JsNum :=
  match a with
  | .undef => .nan
  | .nan => .nan
  | .posInf => .posInf
  | .finite n => .finite (n + m)

/-- `Math.min` on two values of our domain (NaN is absorbing). -/
def jsMin (a b : JsNum) : JsNum :=
  match a.toNumber, b.toNumber with
  | .undef, _ => .nan
  | _, .undef => .nan
  | .nan, _ => .nan
  | _, .nan => .nan
  | .posInf, y => y
  | x, .posInf => x
  | .finite x, .finite y => .finite (min x y)

/-- `Math.min.apply(null, l)`: the minimum of a list of values, `Infinity` for `[]`. -/
def jsMinList (l : List JsNum) : JsNum := l.foldl jsMin .posInf

/-- The fields of a `browser.tabs.Tab` that `background.js` reads. -/
structure Tab where
  id : ℤ
  windowId : ℤ
  lastAccessed : JsNum
  pinned : Bool
  audible : Bool
  groupId : Option ℤ
  title : Option String
  url : Option String
  favIconUrl : Option String
  incognito : Bool
deriving DecidableEq

/-- The settings record of `background.js` (`lib/state.js` section). -/
structure Settings where
  minInactiveMilliseconds : ℤ
  minTabsCount : ℤ
  maxHistorySize : ℤ
  clearHistoryOnExit : Bool
  excludeTabsInGroups : Bool
deriving DecidableEq

/-- A history entry (`ClosedPageInfo` in `background.js`). -/
structure ClosedPageInfo where
  title : Option String
  url : Option String
  favIconUrl : Option String
deriving DecidableEq

/-- The result record of `tabsToClose` (`CloseInfo` in `background.js`).
The `nextCheck` field is the value the source computes: `Infinity`, or an
absolute timestamp `lastAccessed + minInactiveMilliseconds`. -/
structure CloseInfo where
  tabsToClose : List Tab
  nextCheck : JsNum
deriving DecidableEq

/-- The candidate filter applied to unpinned tabs inside `tabsToClose`
(background.js lines 148-158).  Note that the source's test
`tab.lastAccessed >= Infinity` is false when `lastAccessed` is
`undefined` (it coerces to NaN), so a tab with no timestamp passes. -/
def candidateFilter (settings : Settings) (tab : Tab) : Bool :=
  if tab.audible == true || jsGe tab.lastAccessed .posInf then false
  else if settings.excludeTabsInGroups && tab.groupId.isSome && tab.groupId != some (-1) then false
  else true

/-- One step of the engine's insertion sort on a reversed prefix: the new
element moves left past exactly the trailing run of elements whose
`lastAccessed` compares greater under the source's boolean comparator. -/
def insertRevAux (x : Tab) : List Tab → List Tab
  | [] => [x]
  | y :: ys =>
    if jsGt y.lastAccessed x.lastAccessed then y :: insertRevAux x ys else x :: y :: ys

/-- Insert one element at the right end of an already-processed prefix. -/
def insertFromRight (x : Tab) (l : List Tab) : List Tab :=
  (insertRevAux x l.reverse).reverse

/-- Model of `closeableTabs.sort((t1, t2) => t1.lastAccessed > t2.lastAccessed)`
(background.js line 159).  The comparator returns a boolean, which is an
inconsistent comparator in the sense of ECMAScript, so the resulting order
is engine-defined; we model the stable insertion sort that SpiderMonkey
(the engine of Firefox, the extension's target, via the `browser.*` API)
performs: scanning the prefix from the right, an element sinks left while
the element before it compares strictly greater.  For inputs on which the
comparator is consistent (all `lastAccessed` known and finite) this is
exactly the stable ascending sort by `lastAccessed` that every compliant
path produces. -/
def sortByLastAccessed (l : List Tab) : List Tab :=
  l.foldl (fun acc x => insertFromRight x acc) []

/-- The now-closeable test `tab.lastAccessed + settings.minInactiveMilliseconds < now`
(background.js line 162). -/
def nowCloseableTest (now : ℤ) (settings : Settings) (tab : Tab) : Bool :=
  jsLt (jsAddInt tab.lastAccessed settings.minInactiveMilliseconds) (.finite now)

/-- The later-closeable test `tab.lastAccessed + settings.minInactiveMilliseconds >= now`
(background.js line 164). -/
def laterCloseableTest (now : ℤ) (settings : Settings) (tab : Tab) : Bool :=
  jsGe (jsAddInt tab.lastAccessed settings.minInactiveMilliseconds) (.finite now)

/-- The per-window body of `tabsToClose` (background.js lines 139-175).
In the unreachable branch where `onlyLaterCloseableTabs` is empty although
the guard said it is not, we return NaN (the source would throw there;
the guard makes the branch dead). -/
def perWindowResult (now : ℤ) (settings : Settings) (tabs : List Tab) : CloseInfo :=
  let unpinnedTabs := tabs.filter (fun tab => !tab.pinned)
  let numTabsToClose : ℤ := (unpinnedTabs.length : ℤ) - settings.minTabsCount
  if numTabsToClose ≤ 0 then
    ⟨[], .posInf⟩
  else
    let closeableTabs := sortByLastAccessed (unpinnedTabs.filter (candidateFilter settings))
    let nowCloseableTabs := closeableTabs.filter (nowCloseableTest now settings)
    let onlyLaterCloseableTabs := closeableTabs.filter (laterCloseableTest now settings)
    let tabsToClose := nowCloseableTabs.take numTabsToClose.toNat
    let nextCheck :=
      if (tabsToClose.length : ℤ) = numTabsToClose ∨ onlyLaterCloseableTabs.length = 0 then
        JsNum.posInf
      else
        match onlyLaterCloseableTabs with
        | [] => JsNum.nan
        | t :: _ => jsAddInt t.lastAccessed settings.minInactiveMilliseconds
    ⟨tabsToClose, nextCheck⟩

/-- First-occurrence deduplication, as `Array.from(new Set(xs))` produces
(insertion order, first occurrence kept).  `seen` collects values already
emitted. -/
def dedupFirst [DecidableEq α] (seen : List α) : List α → List α
  | [] => []
  | a :: l => if a ∈ seen then dedupFirst seen l else a :: dedupFirst (a :: seen) l

/-- The decision engine `tabsToClose(now, settings, tabs)` (background.js
lines 135-184): group tabs by window, run the per-window body, concatenate
the per-window close lists and take the minimum of the per-window
next-check values. -/
def tabsToClose (now : ℤ) (settings : Settings) (tabs : List Tab) : CloseInfo :=
  let windowIds := dedupFirst [] (tabs.map (fun tab => tab.windowId))
  let tabsByWindow := windowIds.map (fun windowId => tabs.filter (fun tab => tab.windowId == windowId))
  let perWindowResults := tabsByWindow.map (perWindowResult now settings)
  { tabsToClose := (perWindowResults.map (fun res => res.tabsToClose)).flatten
    nextCheck := jsMinList (perWindowResults.map (fun res => res.nextCheck)) }

/-- A character allowed after the first character of a URL scheme. -/
def isSchemeChar (c : Char) : Bool :=
  c.isAlphanum || c == '+' || c == '-' || c == '.'

/-- Model of `new URL(url).protocol` at the interface the source uses: the
lower-cased scheme of the URL followed by a colon.  Returns `none` when
the string does not start with `scheme:` (there the real `URL`
constructor throws, which `saveableTab` does not catch). -/
def protocolOf (url : String) : Option String :=
  let cs := url.toList
  let pre := cs.takeWhile (fun c => c != ':')
  if pre.length = cs.length then none
  else
    match pre with
    | [] => none
    | c :: rest =>
      if c.isAlpha && rest.all isSchemeChar then
        some (String.mk ((c :: rest).map Char.toLower) ++ ":")
      else none

/-- `saveableTab` (background.js lines 191-206).  `none` models the
uncaught exception thrown by `new URL` on an unparsable URL. -/
def saveableTab (tab : Tab) : Option Bool :=
  match tab.title, tab.url with
  | none, _ => some false
  | _, none => some false
  | some _, some url =>
    match protocolOf url with
    | none => none
    | some protocol =>
      if protocol ∈ ["chrome:", "javascript:", "data:", "file:", "about:"] then some false
      else if tab.incognito == true then some false
      else some true

/-- `closedTabs.filter(saveableTab)`, with the exception of the first
unparsable URL propagated as `none`. -/
def filterSaveable : List Tab → Option (List Tab)
  | [] => some []
  | t :: ts =>
    match saveableTab t with
    | none => none
    | some b =>
      match filterSaveable ts with
      | none => none
      | some r => some (if b then t :: r else r)

/-- The record kept for a closed tab (background.js line 237). -/
def toClosedPageInfo (tab : Tab) : ClosedPageInfo :=
  { title := tab.title, url := tab.url, favIconUrl := tab.favIconUrl }

/-- The history-accumulation step of `autoclose` (background.js lines
232-244): when `maxHistorySize > 0` the saveable records of the closed
tabs are prepended to the old history and the result truncated; otherwise
the history is left untouched. -/
def updateHistory (settings : Settings) (closedTabs : List Tab)
    (oldHistory : List ClosedPageInfo) : Option (List ClosedPageInfo) :=
  if 0 < settings.maxHistorySize then
    match filterSaveable closedTabs with
    | none => none
    | some saved =>
      some (((saved.map toClosedPageInfo) ++ oldHistory).take settings.maxHistorySize.toNat)
  else
    some oldHistory

/-- The finite timestamp of a tab, with a default of 0 for tabs whose
`lastAccessed` is not a finite number (only used under hypotheses that
exclude that case). -/
def laKey (t : Tab) : ℤ :=
  match t.lastAccessed with
  | .finite n => n
  | _ => 0

/-- Whether a tab's `lastAccessed` is a known finite timestamp. -/
def hasFiniteLA (t : Tab) : Bool :=
  match t.lastAccessed with
  | .finite _ => true
  | _ => false

/-- Number of unpinned tabs of window `w` in a tab list. -/
def unpinnedCountIn (tabs : List Tab) (w : ℤ) : ℤ :=
  ((tabs.filter (fun t => t.windowId == w)).filter (fun t => !t.pinned)).length

/-- Number of tabs of window `w` in the close list of a result. -/
def closedCountIn (info : CloseInfo) (w : ℤ) : ℤ :=
  (info.tabsToClose.filter (fun t => t.windowId == w)).length

/-- A tab with only identity, window and timestamp set; every other field
is the quiet default (unpinned, silent, ungrouped, no page data). -/
def mkPlainTab (id windowId : ℤ) (la : JsNum) : Tab :=
  ⟨id, windowId, la, false, false, none, none, none, none, false⟩

def settingsC2 : Settings := ⟨10, 1, 0, true, false⟩
def tabC2audible : Tab := ⟨1, 1, .finite 0, false, true, none, none, none, none, false⟩
def tabC2later : Tab := mkPlainTab 2 1 (.finite 1095)
def tabC2far : Tab := mkPlainTab 3 1 (.finite 5000)

def settingsC3 : Settings := ⟨10, 1, 0, true, false⟩
def tabC3a : Tab := mkPlainTab 1 1 (.finite 1095)
def tabC3b : Tab := mkPlainTab 2 1 (.finite 5000)

def settingsC4 : Settings := ⟨10, 1, 0, true, false⟩
def tabC4 : Tab := mkPlainTab 1 1 .undef

def settingsC5 : Settings := ⟨10, 1, 0, true, false⟩
def tabC5 : Tab := mkPlainTab 1 1 (.finite 995)

def settingsC6zero : Settings := ⟨10, 1, 0, true, false⟩
def settingsC6two : Settings := ⟨10, 1, 2, true, false⟩
def recC6 : ClosedPageInfo := ⟨none, none, none⟩
def tabC6 : Tab := ⟨9, 1, .finite 0, false, false, none, some "T", some "https://e.com/", none, false⟩

def settingsC7 : Settings := ⟨10, 3, 0, true, false⟩
def tabC7a : Tab := mkPlainTab 1 1 (.finite 10)
def tabC7b : Tab := mkPlainTab 2 1 (.finite 20)
def tabC7u : Tab := mkPlainTab 3 1 .undef
def tabC7c : Tab := mkPlainTab 4 1 (.finite 3)

def settingsC8 : Settings := ⟨10, 1, 0, true, false⟩
def tabC8a : Tab := mkPlainTab 1 1 (.finite 0)
def tabC8b : Tab := mkPlainTab 2 1 (.finite 995)
def tabC8c : Tab := mkPlainTab 3 1 (.finite 996)

def settingsC10 : Settings := ⟨10, 1, 0, true, false⟩
def tabC10a : Tab := mkPlainTab 1 1 (.finite 1095)
def tabC10b : Tab := mkPlainTab 2 1 (.finite 5000)

/-! ## Basic facts about the JavaScript value domain -/

theorem jsLt_add_finite {la : JsNum} {m now : ℤ}
    (h : jsLt (jsAddInt la m) (.finite now) = true) :
    ∃ n, la = .finite n ∧ n + m < now := by
  cases la <;> simp [jsAddInt, jsLt, JsNum.toNumber] at h ⊢
  omega

theorem jsGe_finite_right {x : JsNum} {now : ℤ} (h : jsGe x (.finite now) = true) :
    x = .posInf ∨ ∃ k, x = .finite k ∧ now ≤ k := by
  cases x <;> simp [jsGe, JsNum.toNumber] at h ⊢
  omega

theorem jsAddInt_posInf {la : JsNum} {m : ℤ} (h : jsAddInt la m = .posInf) : la = .posInf := by
  cases la <;> simp [jsAddInt] at h ⊢

theorem not_jsGe_of_jsLt {a b : JsNum} (h : jsLt a b = true) : jsGe a b = false := by
  cases a <;> cases b <;> simp [jsLt, jsGe, JsNum.toNumber] at h ⊢
  omega

theorem candidateFilter_not_posInf {s : Settings} {t : Tab}
    (h : candidateFilter s t = true) : t.lastAccessed ≠ .posInf := by
  intro hla
  simp [candidateFilter, hla, jsGe, JsNum.toNumber] at h

theorem hasFiniteLA_iff {t : Tab} : hasFiniteLA t = true ↔ ∃ n, t.lastAccessed = .finite n := by
  cases h : t.lastAccessed <;> simp [hasFiniteLA, h]

theorem laterCloseable_finite {now : ℤ} {s : Settings} {t : Tab}
    (hc : candidateFilter s t = true) (hl : laterCloseableTest now s t = true) :
    ∃ n, t.lastAccessed = .finite n ∧ now ≤ n + s.minInactiveMilliseconds := by
  rcases jsGe_finite_right hl with hinf | ⟨k, hk, hnk⟩
  · exact absurd (jsAddInt_posInf hinf) (candidateFilter_not_posInf hc)
  · cases hla : t.lastAccessed with
    | finite n =>
      rw [hla] at hk
      simp [jsAddInt] at hk
      exact ⟨n, rfl, by omega⟩
    | undef => rw [hla] at hk; simp [jsAddInt] at hk
    | nan => rw [hla] at hk; simp [jsAddInt] at hk
    | posInf => rw [hla] at hk; simp [jsAddInt] at hk

/-! ## First-occurrence deduplication -/

theorem mem_dedupFirst [DecidableEq α] {a : α} :
    ∀ (l seen : List α), a ∈ dedupFirst seen l ↔ a ∈ l ∧ a ∉ seen
  | [], seen => by simp [dedupFirst]
  | b :: l, seen => by
    simp only [dedupFirst]
    split
    · rw [mem_dedupFirst l seen]
      constructor
      · rintro ⟨h1, h2⟩
        exact ⟨List.mem_cons_of_mem _ h1, h2⟩
      · rintro ⟨h1, h2⟩
        rcases List.mem_cons.mp h1 with rfl | h1
        · exact absurd (by assumption) h2
        · exact ⟨h1, h2⟩
    · rw [List.mem_cons, mem_dedupFirst l (b :: seen)]
      constructor
      · rintro (rfl | ⟨h1, h2⟩)
        · exact ⟨List.mem_cons_self _ _, by assumption⟩
        · simp only [List.mem_cons, not_or] at h2
          exact ⟨List.mem_cons_of_mem _ h1, h2.2⟩
      · rintro ⟨h1, h2⟩
        rcases List.mem_cons.mp h1 with rfl | h1
        · exact Or.inl rfl
        · by_cases hab : a = b
          · exact Or.inl hab
          · exact Or.inr ⟨h1, by simp [hab, h2]⟩

theorem nodup_dedupFirst [DecidableEq α] :
    ∀ (l seen : List α), (dedupFirst seen l).Nodup
  | [], seen => by simp [dedupFirst]
  | b :: l, seen => by
    simp only [dedupFirst]
    split
    · exact nodup_dedupFirst l seen
    · refine List.Nodup.cons ?_ (nodup_dedupFirst l (b :: seen))
      intro hb
      rw [mem_dedupFirst] at hb
      exact hb.2 (List.mem_cons_self _ _)

/-! ## The engine's sort -/

theorem mem_insertRevAux {a x : Tab} {l : List Tab} :
    a ∈ insertRevAux x l ↔ a = x ∨ a ∈ l := by
  induction l with
  | nil => simp [insertRevAux]
  | cons y ys ih =>
    simp only [insertRevAux]
    split
    · simp only [List.mem_cons, ih]
      tauto
    · simp only [List.mem_cons]

theorem mem_insertFromRight {a x : Tab} {l : List Tab} :
    a ∈ insertFromRight x l ↔ a = x ∨ a ∈ l := by
  rw [insertFromRight, List.mem_reverse, mem_insertRevAux, List.mem_reverse]

theorem mem_foldl_insertFromRight {a : Tab} :
    ∀ {l acc : List Tab}, a ∈ l.foldl (fun acc x => insertFromRight x acc) acc ↔ a ∈ acc ∨ a ∈ l
  | [], acc => by simp
  | x :: l, acc => by
    rw [List.foldl_cons, mem_foldl_insertFromRight, mem_insertFromRight]
    simp only [List.mem_cons]
    tauto

theorem mem_sortByLastAccessed {a : Tab} {l : List Tab} :
    a ∈ sortByLastAccessed l ↔ a ∈ l := by
  rw [sortByLastAccessed, mem_foldl_insertFromRight]
  simp

theorem jsGt_finite {x y : Tab} (hx : hasFiniteLA x = true) (hy : hasFiniteLA y = true) :
    jsGt y.lastAccessed x.lastAccessed = decide (laKey x < laKey y) := by
  obtain ⟨nx, hnx⟩ := hasFiniteLA_iff.mp hx
  obtain ⟨ny, hny⟩ := hasFiniteLA_iff.mp hy
  simp [jsGt, jsLt, JsNum.toNumber, laKey, hnx, hny]

theorem pairwise_insertRevAux {x : Tab} (hx : hasFiniteLA x = true) :
    ∀ {l : List Tab}, (∀ y ∈ l, hasFiniteLA y = true) →
      l.Pairwise (fun a b => laKey b ≤ laKey a) →
      (insertRevAux x l).Pairwise (fun a b => laKey b ≤ laKey a)
  | [], _, _ => by simp [insertRevAux]
  | y :: ys, hfin, hp => by
    have hy : hasFiniteLA y = true := hfin y (List.mem_cons_self _ _)
    rw [List.pairwise_cons] at hp
    simp only [insertRevAux]
    split
    · rename_i hgt
      rw [jsGt_finite hx hy] at hgt
      have hxy : laKey x < laKey y := by simpa using hgt
      refine List.pairwise_cons.mpr ⟨?_, ?_⟩
      · intro z hz
        rcases mem_insertRevAux.mp hz with rfl | hz
        · exact le_of_lt hxy
        · exact hp.1 z hz
      · exact pairwise_insertRevAux hx (fun z hz => hfin z (List.mem_cons_of_mem _ hz)) hp.2
    · rename_i hgt
      rw [jsGt_finite hx hy] at hgt
      have hyx : laKey y ≤ laKey x := by simpa using hgt
      refine List.pairwise_cons.mpr ⟨?_, List.pairwise_cons.mpr hp⟩
      intro z hz
      rcases List.mem_cons.mp hz with rfl | hz
      · exact hyx
      · exact le_trans (hp.1 z hz) hyx

theorem pairwise_insertFromRight {x : Tab} {l : List Tab} (hx : hasFiniteLA x = true)
    (hfin : ∀ y ∈ l, hasFiniteLA y = true)
    (hp : l.Pairwise (fun a b => laKey a ≤ laKey b)) :
    (insertFromRight x l).Pairwise (fun a b => laKey a ≤ laKey b) := by
  rw [insertFromRight, List.pairwise_reverse]
  exact pairwise_insertRevAux hx (fun y hy => hfin y (List.mem_reverse.mp hy))
    (List.pairwise_reverse.mpr hp)

theorem pairwise_sortByLastAccessed {l : List Tab} (hfin : ∀ t ∈ l, hasFiniteLA t = true) :
    (sortByLastAccessed l).Pairwise (fun a b => laKey a ≤ laKey b) := by
  suffices h : ∀ (l acc : List Tab), (∀ t ∈ l, hasFiniteLA t = true) →
      (∀ t ∈ acc, hasFiniteLA t = true) →
      acc.Pairwise (fun a b => laKey a ≤ laKey b) →
      (l.foldl (fun acc x => insertFromRight x acc) acc).Pairwise (fun a b => laKey a ≤ laKey b) by
    exact h l [] hfin (by simp) (by simp)
  intro l
  induction l with
  | nil => intro acc _ _ hp; simpa using hp
  | cons x l ih =>
    intro acc hl hacc hp
    rw [List.foldl_cons]
    refine ih _ (fun t ht => hl t (List.mem_cons_of_mem _ ht)) ?_ ?_
    · intro t ht
      rcases mem_insertFromRight.mp ht with rfl | ht
      · exact hl t (List.mem_cons_self _ _)
      · exact hacc t ht
    · exact pairwise_insertFromRight (hl x (List.mem_cons_self _ _)) hacc hp

/-! ## Facts about the per-window body -/

theorem take_length_le_int {L : List Tab} {N : ℤ} (h : 0 < N) :
    ((L.take N.toNat).length : ℤ) ≤ N := by
  have h1 := List.length_take_le N.toNat L
  omega

theorem mem_perWindow_tabsToClose {now : ℤ} {s : Settings} {ts : List Tab} {t : Tab}
    (h : t ∈ (perWindowResult now s ts).tabsToClose) :
    t ∈ ts ∧ t.pinned = false ∧ candidateFilter s t = true ∧ nowCloseableTest now s t = true := by
  simp only [perWindowResult] at h
  split at h
  · simp at h
  · dsimp only at h
    have h2 := List.mem_of_mem_take h
    rw [List.mem_filter] at h2
    obtain ⟨hsort, hnow⟩ := h2
    rw [mem_sortByLastAccessed, List.mem_filter] at hsort
    obtain ⟨hunp, hcand⟩ := hsort
    rw [List.mem_filter] at hunp
    obtain ⟨hts, hnp⟩ := hunp
    exact ⟨hts, by simpa using hnp, hcand, hnow⟩

theorem perWindow_close_length (now : ℤ) (s : Settings) (ts : List Tab) :
    (((perWindowResult now s ts).tabsToClose).length : ℤ) ≤
      max 0 (((ts.filter (fun t => !t.pinned)).length : ℤ) - s.minTabsCount) := by
  simp only [perWindowResult]
  split
  · simp
  · rename_i hnum
    dsimp only
    exact le_max_of_le_right (take_length_le_int (by omega))

theorem perWindow_nextCheck_finite {now : ℤ} {s : Settings} {ts : List Tab} {v : ℤ}
    (h : (perWindowResult now s ts).nextCheck = .finite v) :
    ∃ t, t ∈ ts ∧ t.pinned = false ∧ candidateFilter s t = true ∧
      laterCloseableTest now s t = true ∧
      ∃ n, t.lastAccessed = .finite n ∧ v = n + s.minInactiveMilliseconds ∧ now ≤ v := by
  simp only [perWindowResult] at h
  split at h
  · simp at h
  · dsimp only at h
    split at h
    · simp at h
    · rename_i hcond
      push_neg at hcond
      have hne : (List.filter (laterCloseableTest now s)
          (sortByLastAccessed (List.filter (candidateFilter s)
            (List.filter (fun tab => !tab.pinned) ts)))) ≠ [] := by
        intro hnil
        rw [hnil] at hcond
        simp at hcond
      obtain ⟨t0, rest, heq⟩ := List.exists_cons_of_ne_nil hne
      rw [heq] at h
      dsimp only at h
      have ht0 : t0 ∈ List.filter (laterCloseableTest now s)
          (sortByLastAccessed (List.filter (candidateFilter s)
            (List.filter (fun t => !t.pinned) ts))) := by
        rw [heq]
        exact List.mem_cons_self _ _
      rw [List.mem_filter] at ht0
      obtain ⟨hsort, hlater⟩ := ht0
      rw [mem_sortByLastAccessed, List.mem_filter] at hsort
      obtain ⟨hunp, hcand⟩ := hsort
      rw [List.mem_filter] at hunp
      obtain ⟨hts, hnp⟩ := hunp
      obtain ⟨n, hla, hle⟩ := laterCloseable_finite hcand hlater
      rw [hla] at h
      simp [jsAddInt] at h
      exact ⟨t0, hts, by simpa using hnp, hcand, hlater, n, hla, by omega, by omega⟩

theorem perWindow_nextCheck_shape (now : ℤ) (s : Settings) (ts : List Tab) :
    (perWindowResult now s ts).nextCheck = .posInf ∨
      ∃ v, (perWindowResult now s ts).nextCheck = .finite v := by
  simp only [perWindowResult]
  split
  · exact Or.inl rfl
  · dsimp only
    split
    · exact Or.inl rfl
    · rename_i hcond
      push_neg at hcond
      have hne : (List.filter (laterCloseableTest now s)
          (sortByLastAccessed (List.filter (candidateFilter s)
            (List.filter (fun tab => !tab.pinned) ts)))) ≠ [] := by
        intro hnil
        rw [hnil] at hcond
        simp at hcond
      obtain ⟨t0, rest, heq⟩ := List.exists_cons_of_ne_nil hne
      rw [heq]
      dsimp only
      have ht0 : t0 ∈ List.filter (laterCloseableTest now s)
          (sortByLastAccessed (List.filter (candidateFilter s)
            (List.filter (fun t => !t.pinned) ts))) := by
        rw [heq]
        exact List.mem_cons_self _ _
      rw [List.mem_filter] at ht0
      rcases jsGe_finite_right ht0.2 with hinf | ⟨k, hk, _⟩
      · exact Or.inl hinf
      · exact Or.inr ⟨k, hk⟩

theorem perWindow_nextCheck_min {now : ℤ} {s : Settings} {ts : List Tab} {v : ℤ}
    (hfin : ∀ t ∈ ts, hasFiniteLA t = true)
    (h : (perWindowResult now s ts).nextCheck = .finite v) :
    ∀ t ∈ ts, t.pinned = false → candidateFilter s t = true →
      laterCloseableTest now s t = true →
      ∀ n, t.lastAccessed = .finite n → v ≤ n + s.minInactiveMilliseconds := by
  intro t ht hp hc hl n hn
  simp only [perWindowResult] at h
  split at h
  · simp at h
  · dsimp only at h
    split at h
    · simp at h
    · rename_i hcond
      push_neg at hcond
      have hne : (List.filter (laterCloseableTest now s)
          (sortByLastAccessed (List.filter (candidateFilter s)
            (List.filter (fun tab => !tab.pinned) ts)))) ≠ [] := by
        intro hnil
        rw [hnil] at hcond
        simp at hcond
      obtain ⟨t0, rest, heq⟩ := List.exists_cons_of_ne_nil hne
      rw [heq] at h
      dsimp only at h
      have hpw : (List.filter (laterCloseableTest now s)
          (sortByLastAccessed (List.filter (candidateFilter s)
            (List.filter (fun t => !t.pinned) ts)))).Pairwise
            (fun a b => laKey a ≤ laKey b) := by
        refine List.Pairwise.filter _ (pairwise_sortByLastAccessed ?_)
        intro u hu
        rw [List.mem_filter] at hu
        have hu2 := hu.1
        rw [List.mem_filter] at hu2
        exact hfin u hu2.1
      have ht0mem : t0 ∈ List.filter (laterCloseableTest now s)
          (sortByLastAccessed (List.filter (candidateFilter s)
            (List.filter (fun t => !t.pinned) ts))) := by
        rw [heq]
        exact List.mem_cons_self _ _
      have ht0later : laterCloseableTest now s t0 = true := (List.mem_filter.mp ht0mem).2
      have ht0cand : candidateFilter s t0 = true := by
        have h2 := (List.mem_filter.mp ht0mem).1
        rw [mem_sortByLastAccessed, List.mem_filter] at h2
        exact h2.2
      obtain ⟨k, hk, _⟩ := laterCloseable_finite ht0cand ht0later
      rw [hk] at h
      simp [jsAddInt] at h
      have htmem : t ∈ List.filter (laterCloseableTest now s)
          (sortByLastAccessed (List.filter (candidateFilter s)
            (List.filter (fun t => !t.pinned) ts))) := by
        rw [List.mem_filter, mem_sortByLastAccessed, List.mem_filter, List.mem_filter]
        exact ⟨⟨⟨ht, by simp [hp]⟩, hc⟩, hl⟩
      rw [heq] at htmem hpw
      rcases List.mem_cons.mp htmem with rfl | htrest
      · rw [hn] at hk
        cases hk
        omega
      · have hrel := (List.pairwise_cons.mp hpw).1 t htrest
        have hk0 : laKey t0 = k := by simp [laKey, hk]
        have hkt : laKey t = n := by simp [laKey, hn]
        omega

/-! ## The minimum over windows -/

theorem foldl_jsMin_spec :
    ∀ (l : List JsNum) (acc : JsNum),
      (acc = .posInf ∨ ∃ n, acc = .finite n) →
      (∀ x ∈ l, x = .posInf ∨ ∃ n, x = .finite n) →
      (l.foldl jsMin acc = acc ∧ acc = .posInf ∧ ∀ x ∈ l, x = .posInf) ∨
      (∃ v, l.foldl jsMin acc = .finite v ∧ (acc = .finite v ∨ .finite v ∈ l) ∧
        (∀ m, acc = .finite m → v ≤ m) ∧ (∀ x ∈ l, ∀ m, x = .finite m → v ≤ m))
  | [], acc => by
    intro hacc _
    rcases hacc with rfl | ⟨n, rfl⟩
    · exact Or.inl ⟨rfl, rfl, by simp⟩
    · exact Or.inr ⟨n, rfl, Or.inl rfl, by rintro m rfl2; simp_all, by simp⟩
  | x :: l, acc => by
    intro hacc hl
    have hx := hl x (List.mem_cons_self _ _)
    have hl2 : ∀ y ∈ l, y = .posInf ∨ ∃ n, y = .finite n :=
      fun y hy => hl y (List.mem_cons_of_mem _ hy)
    rw [List.foldl_cons]
    rcases hacc with rfl | ⟨na, rfl⟩ <;> rcases hx with rfl | ⟨nx, rfl⟩
    · have hmin : jsMin JsNum.posInf JsNum.posInf = JsNum.posInf := rfl
      rw [hmin]
      rcases foldl_jsMin_spec l .posInf (Or.inl rfl) hl2 with ⟨h1, _, h3⟩ | ⟨v, h1, h2, _, h4⟩
      · refine Or.inl ⟨h1, rfl, ?_⟩
        intro y hy
        rcases List.mem_cons.mp hy with rfl | hy
        · rfl
        · exact h3 y hy
      · refine Or.inr ⟨v, h1, ?_, ?_, ?_⟩
        · rcases h2 with h2 | h2
          · cases h2
          · exact Or.inr (List.mem_cons_of_mem _ h2)
        · rintro m hm
          cases hm
        · intro y hy m hm
          rcases List.mem_cons.mp hy with rfl | hy
          · cases hm
          · exact h4 y hy m hm
    · have hmin : jsMin JsNum.posInf (JsNum.finite nx) = JsNum.finite nx := rfl
      rw [hmin]
      rcases foldl_jsMin_spec l (.finite nx) (Or.inr ⟨nx, rfl⟩) hl2 with
        ⟨h1, h2, _⟩ | ⟨v, h1, h2, h3, h4⟩
      · cases h2
      · refine Or.inr ⟨v, h1, ?_, ?_, ?_⟩
        · rcases h2 with h2 | h2
          · exact Or.inr (by rw [← h2]; exact List.mem_cons_self _ _)
          · exact Or.inr (List.mem_cons_of_mem _ h2)
        · rintro m hm
          cases hm
        · intro y hy m hm
          rcases List.mem_cons.mp hy with rfl | hy
          · cases hm
            exact h3 _ rfl
          · exact h4 y hy m hm
    · have hmin : jsMin (JsNum.finite na) JsNum.posInf = JsNum.finite na := rfl
      rw [hmin]
      rcases foldl_jsMin_spec l (.finite na) (Or.inr ⟨na, rfl⟩) hl2 with
        ⟨h1, h2, _⟩ | ⟨v, h1, h2, h3, h4⟩
      · cases h2
      · refine Or.inr ⟨v, h1, ?_, ?_, ?_⟩
        · rcases h2 with h2 | h2
          · exact Or.inl h2
          · exact Or.inr (List.mem_cons_of_mem _ h2)
        · rintro m hm
          cases hm
          exact h3 _ rfl
        · intro y hy m hm
          rcases List.mem_cons.mp hy with rfl | hy
          · cases hm
          · exact h4 y hy m hm
    · have hmin : jsMin (JsNum.finite na) (JsNum.finite nx) = JsNum.finite (min na nx) := rfl
      rw [hmin]
      rcases foldl_jsMin_spec l (.finite (min na nx)) (Or.inr ⟨_, rfl⟩) hl2 with
        ⟨h1, h2, _⟩ | ⟨v, h1, h2, h3, h4⟩
      · cases h2
      · refine Or.inr ⟨v, h1, ?_, ?_, ?_⟩
        · rcases h2 with h2 | h2
          · injection h2 with h2
            rcases le_total na nx with hle | hle
            · exact Or.inl (by rw [min_eq_left hle] at h2; rw [h2])
            · exact Or.inr (by rw [min_eq_right hle] at h2; rw [h2]; exact List.mem_cons_self _ _)
          · exact Or.inr (List.mem_cons_of_mem _ h2)
        · rintro m hm
          cases hm
          have := h3 _ rfl
          omega
        · intro y hy m hm
          rcases List.mem_cons.mp hy with rfl | hy
          · cases hm
            have := h3 _ rfl
            omega
          · exact h4 y hy m hm

theorem jsMinList_finite {l : List JsNum} {v : ℤ}
    (hl : ∀ x ∈ l, x = .posInf ∨ ∃ n, x = .finite n)
    (h : jsMinList l = .finite v) :
    (.finite v ∈ l) ∧ ∀ x ∈ l, ∀ m, x = .finite m → v ≤ m := by
  rcases foldl_jsMin_spec l .posInf (Or.inl rfl) hl with ⟨h1, _, _⟩ | ⟨w, h1, h2, _, h4⟩
  · rw [jsMinList] at h
    rw [h1] at h
    cases h
  · rw [jsMinList] at h
    rw [h1] at h
    injection h with h
    subst h
    rcases h2 with h2 | h2
    · cases h2
    · exact ⟨h2, h4⟩

/-! ## Unfolding the decision engine -/

theorem tabsToClose_close_eq (now : ℤ) (s : Settings) (tabs : List Tab) :
    (tabsToClose now s tabs).tabsToClose =
      ((dedupFirst [] (tabs.map (fun tab => tab.windowId))).map
        (fun w => (perWindowResult now s
          (tabs.filter (fun tab => tab.windowId == w))).tabsToClose)).flatten := by
  simp only [tabsToClose, List.map_map]
  rfl

theorem tabsToClose_nextCheck_eq (now : ℤ) (s : Settings) (tabs : List Tab) :
    (tabsToClose now s tabs).nextCheck =
      jsMinList ((dedupFirst [] (tabs.map (fun tab => tab.windowId))).map
        (fun w => (perWindowResult now s
          (tabs.filter (fun tab => tab.windowId == w))).nextCheck)) := by
  simp only [tabsToClose, List.map_map]
  rfl

theorem global_close_mem {now : ℤ} {s : Settings} {tabs : List Tab} {t : Tab}
    (h : t ∈ (tabsToClose now s tabs).tabsToClose) :
    t ∈ tabs ∧ t.pinned = false ∧ candidateFilter s t = true ∧
      nowCloseableTest now s t = true := by
  rw [tabsToClose_close_eq, List.mem_flatten] at h
  obtain ⟨l, hl, htl⟩ := h
  rw [List.mem_map] at hl
  obtain ⟨w, _, rfl⟩ := hl
  have h2 := mem_perWindow_tabsToClose htl
  rw [List.mem_filter] at h2
  exact ⟨h2.1.1, h2.2⟩

theorem global_nextCheck_finite {now : ℤ} {s : Settings} {tabs : List Tab} {v : ℤ}
    (h : (tabsToClose now s tabs).nextCheck = .finite v) :
    ∃ t, t ∈ tabs ∧ t.pinned = false ∧ candidateFilter s t = true ∧
      laterCloseableTest now s t = true ∧
      ∃ n, t.lastAccessed = .finite n ∧ v = n + s.minInactiveMilliseconds ∧ now ≤ v := by
  rw [tabsToClose_nextCheck_eq] at h
  have hshape : ∀ x ∈ (dedupFirst [] (tabs.map (fun tab => tab.windowId))).map
      (fun w => (perWindowResult now s
        (tabs.filter (fun tab => tab.windowId == w))).nextCheck),
      x = .posInf ∨ ∃ n, x = .finite n := by
    intro x hx
    rw [List.mem_map] at hx
    obtain ⟨w, _, rfl⟩ := hx
    rcases perWindow_nextCheck_shape now s (tabs.filter (fun tab => tab.windowId == w)) with
      h1 | ⟨n, h1⟩
    · exact Or.inl h1
    · exact Or.inr ⟨n, h1⟩
  obtain ⟨hmem, _⟩ := jsMinList_finite hshape h
  rw [List.mem_map] at hmem
  obtain ⟨w, _, hw⟩ := hmem
  obtain ⟨t, hts, hp, hc, hl, n, hla, hv, hnv⟩ := perWindow_nextCheck_finite hw
  rw [List.mem_filter] at hts
  exact ⟨t, hts.1, hp, hc, hl, n, hla, hv, hnv⟩

/-! ## Splitting the close list by window -/

theorem filter_flatten_eq {w : ℤ} {p : Tab → Bool} {f : ℤ → List Tab}
    (hp : ∀ u, ∀ t ∈ f u, (p t = true ↔ u = w)) :
    ∀ ws : List ℤ, ws.Nodup →
      ((ws.map f).flatten.filter p = if w ∈ ws then f w else [])
  | [], _ => by simp
  | a :: ws, hnd => by
    rw [List.map_cons, List.flatten_cons, List.filter_append]
    have hnd2 := List.nodup_cons.mp hnd
    rw [filter_flatten_eq hp ws hnd2.2]
    by_cases haw : a = w
    · subst haw
      rw [List.filter_eq_self.mpr (fun t ht => (hp a t ht).mpr rfl), if_neg hnd2.1,
        if_pos (List.mem_cons_self _ _), List.append_nil]
    · have hnil : (f a).filter p = [] :=
        List.filter_eq_nil_iff.mpr (fun t ht hpt => haw ((hp a t ht).mp hpt))
      rw [hnil, List.nil_append]
      by_cases hw : w ∈ ws
      · rw [if_pos hw, if_pos (List.mem_cons_of_mem _ hw)]
      · have hnmem : w ∉ a :: ws := by
          rw [List.mem_cons]
          push_neg
          exact ⟨fun h => haw h.symm, hw⟩
        rw [if_neg hw, if_neg hnmem]

theorem closeSet_filter_window (now : ℤ) (s : Settings) (tabs : List Tab) (w : ℤ) :
    ((tabsToClose now s tabs).tabsToClose).filter (fun t => t.windowId == w) =
      if w ∈ dedupFirst [] (tabs.map (fun tab => tab.windowId)) then
        (perWindowResult now s (tabs.filter (fun tab => tab.windowId == w))).tabsToClose
      else [] := by
  rw [tabsToClose_close_eq]
  refine filter_flatten_eq ?_ _ (nodup_dedupFirst _ _)
  intro u t ht
  have h2 := (mem_perWindow_tabsToClose ht).1
  rw [List.mem_filter] at h2
  simp only [beq_iff_eq] at h2 ⊢
  rw [h2.2]

theorem perWindow_nextCheck_shapes (now : ℤ) (s : Settings) (tabs : List Tab) :
    ∀ x ∈ (dedupFirst [] (tabs.map (fun tab => tab.windowId))).map
      (fun w => (perWindowResult now s (tabs.filter (fun tab => tab.windowId == w))).nextCheck),
      x = .posInf ∨ ∃ n, x = .finite n := by
  intro x hx
  rw [List.mem_map] at hx
  obtain ⟨w, _, rfl⟩ := hx
  rcases perWindow_nextCheck_shape now s (tabs.filter (fun tab => tab.windowId == w)) with
    h1 | ⟨n, h1⟩
  · exact Or.inl h1
  · exact Or.inr ⟨n, h1⟩

theorem global_le_perWindow {now : ℤ} {s : Settings} {tabs : List Tab} {v vw w : ℤ}
    (hv : (tabsToClose now s tabs).nextCheck = .finite v)
    (hw : (perWindowResult now s
      (tabs.filter (fun tab => tab.windowId == w))).nextCheck = .finite vw)
    (hmem : w ∈ dedupFirst [] (tabs.map (fun tab => tab.windowId))) : v ≤ vw := by
  rw [tabsToClose_nextCheck_eq] at hv
  obtain ⟨_, hmin⟩ := jsMinList_finite (perWindow_nextCheck_shapes now s tabs) hv
  exact hmin _ (List.mem_map.mpr ⟨w, hmem, rfl⟩) vw hw

/-! ## The claims -/

/-- C1: Floor invariant: for every invocation of the decision engine and
every window, the unpinned count before minus the number of that window's
tabs in the returned close-set is at least `min(minTabsCount, unpinned
count)`; equivalently each window contributes at most
`max(0, unpinnedCount - minTabsCount)` tabs to the close-set. -/
theorem floor_invariant_per_window (now : ℤ) (s : Settings) (tabs : List Tab) (w : ℤ) :
    unpinnedCountIn tabs w - closedCountIn (tabsToClose now s tabs) w ≥
      min s.minTabsCount (unpinnedCountIn tabs w) ∧
    closedCountIn (tabsToClose now s tabs) w ≤
      max 0 (unpinnedCountIn tabs w - s.minTabsCount) := by
  have hc0 : (0 : ℤ) ≤ closedCountIn (tabsToClose now s tabs) w := by
    rw [closedCountIn]
    exact Int.natCast_nonneg _
  have hkey : closedCountIn (tabsToClose now s tabs) w ≤
      max 0 (unpinnedCountIn tabs w - s.minTabsCount) := by
    rw [closedCountIn, closeSet_filter_window]
    split
    · rw [unpinnedCountIn]
      exact perWindow_close_length now s _
    · simp only [List.length_nil, Nat.cast_zero]
      exact le_max_left 0 _
  exact ⟨by omega, hkey⟩

/-- C2 counterexample: at this input the returned next-check is finite
(1105, a delay of 105 from `now = 1000`), yet the audible tab crossed its
closure threshold (at instant 10) strictly before `now + d`, so the claim
that no tab in any window crosses its threshold strictly before `now + d`
is false as stated. -/
theorem nextWake_tightness_cex :
    (tabsToClose 1000 settingsC2 [tabC2audible, tabC2later]).nextCheck = .finite 1105 ∧
    tabC2audible ∈ [tabC2audible, tabC2later] ∧
    jsLt (jsAddInt tabC2audible.lastAccessed settingsC2.minInactiveMilliseconds)
      (.finite 1105) = true ∧
    jsLt (jsAddInt tabC2audible.lastAccessed settingsC2.minInactiveMilliseconds)
      (.finite 1000) = true := by decide

/-- C2 (amended): when every tab's `lastAccessed` is a known finite
timestamp and the returned next-check is a finite value `v` (an absolute
instant), some candidate tab crosses its threshold exactly at `v`, and no
later-closeable candidate belonging to a window whose per-window
next-check is finite (i.e. whose budget was not exhausted) crosses
strictly before `v`. -/
theorem nextWake_tightness_amended {now : ℤ} {s : Settings} {tabs : List Tab} {v : ℤ}
    (hfin : ∀ t ∈ tabs, hasFiniteLA t = true)
    (hv : (tabsToClose now s tabs).nextCheck = .finite v) :
    (∃ t, t ∈ tabs ∧ candidateFilter s t = true ∧ laterCloseableTest now s t = true ∧
      jsAddInt t.lastAccessed s.minInactiveMilliseconds = .finite v) ∧
    (∀ w vw, (perWindowResult now s
        (tabs.filter (fun tab => tab.windowId == w))).nextCheck = .finite vw →
      ∀ t ∈ tabs, t.windowId = w → t.pinned = false → candidateFilter s t = true →
        laterCloseableTest now s t = true →
        ∀ n, t.lastAccessed = .finite n → v ≤ n + s.minInactiveMilliseconds) := by
  constructor
  · obtain ⟨t, hts, _, hc, hl, n, hla, hvn, _⟩ := global_nextCheck_finite hv
    refine ⟨t, hts, hc, hl, ?_⟩
    rw [hla]
    simp only [jsAddInt, JsNum.finite.injEq]
    omega
  · intro w vw hw t ht hwid hp hc hl n hn
    have hmemw : w ∈ dedupFirst [] (tabs.map (fun tab => tab.windowId)) := by
      rw [mem_dedupFirst]
      exact ⟨List.mem_map.mpr ⟨t, ht, hwid⟩, by simp⟩
    have hvvw : v ≤ vw := global_le_perWindow hv hw hmemw
    have hfin2 : ∀ u ∈ tabs.filter (fun tab => tab.windowId == w), hasFiniteLA u = true :=
      fun u hu => hfin u (List.mem_filter.mp hu).1
    have htf : t ∈ tabs.filter (fun tab => tab.windowId == w) :=
      List.mem_filter.mpr ⟨ht, by simp [hwid]⟩
    have := perWindow_nextCheck_min hfin2 hw t htf hp hc hl n hn
    omega

/-- C2 amended, instantiated: with two finite-timestamp tabs the returned
next-check 1105 is crossed exactly by a candidate tab. -/
theorem nextWake_tightness_amended_witness :
    ∃ t, t ∈ [tabC2later, tabC2far] ∧ candidateFilter settingsC2 t = true ∧
      laterCloseableTest 1000 settingsC2 t = true ∧
      jsAddInt t.lastAccessed settingsC2.minInactiveMilliseconds = JsNum.finite 1105 :=
  (@nextWake_tightness_amended 1000 settingsC2 [tabC2later, tabC2far] 1105
    (by decide) (by decide)).1

/-- C3 counterexample: the returned next-check is the absolute instant
1105 (`lastAccessed + minInactiveMilliseconds` of a candidate), not a
duration from `now = 1000`: no tab crosses its threshold at
`now + 1105 = 2105`, which the duration reading would require. -/
theorem nextCheck_absolute_cex :
    (tabsToClose 1000 settingsC3 [tabC3a, tabC3b]).nextCheck = .finite 1105 ∧
    jsAddInt tabC3a.lastAccessed settingsC3.minInactiveMilliseconds = .finite 1105 ∧
    (∀ t ∈ [tabC3a, tabC3b],
      jsAddInt t.lastAccessed settingsC3.minInactiveMilliseconds ≠
        .finite (1000 + 1105)) := by decide

/-- C3 (amended): the returned next-check is the minimum of the
per-window next-check values over all windows (`Infinity` when every
window says never), and when finite it is the absolute instant
`lastAccessed + minInactiveMilliseconds` of some later-closeable
candidate tab; the caller (`autoclose`) derives the delay by subtracting
`now` from it. -/
theorem nextCheck_min_over_windows (now : ℤ) (s : Settings) (tabs : List Tab) :
    (tabsToClose now s tabs).nextCheck =
      jsMinList ((dedupFirst [] (tabs.map (fun tab => tab.windowId))).map
        (fun w => (perWindowResult now s
          (tabs.filter (fun tab => tab.windowId == w))).nextCheck)) ∧
    (∀ v : ℤ, (tabsToClose now s tabs).nextCheck = .finite v →
      ∃ t, t ∈ tabs ∧ candidateFilter s t = true ∧ laterCloseableTest now s t = true ∧
        jsAddInt t.lastAccessed s.minInactiveMilliseconds = .finite v) := by
  refine ⟨tabsToClose_nextCheck_eq now s tabs, ?_⟩
  intro v hv
  obtain ⟨t, hts, _, hc, hl, n, hla, hvn, _⟩ := global_nextCheck_finite hv
  refine ⟨t, hts, hc, hl, ?_⟩
  rw [hla]
  simp only [jsAddInt, JsNum.finite.injEq]
  omega

/-- C3 amended, instantiated: the finite next-check 1105 is the absolute
threshold instant of a concrete candidate tab. -/
theorem nextCheck_min_over_windows_witness :
    ∃ t, t ∈ [tabC3a, tabC3b] ∧ candidateFilter settingsC3 t = true ∧
      laterCloseableTest 1000 settingsC3 t = true ∧
      jsAddInt t.lastAccessed settingsC3.minInactiveMilliseconds = JsNum.finite 1105 :=
  (nextCheck_min_over_windows 1000 settingsC3 [tabC3a, tabC3b]).2 1105 (by decide)

/-- C4 (code bug): a tab that is not audible but has no `lastAccessed`
timestamp passes the candidate filter, because the source's test
`tab.lastAccessed >= Infinity` evaluates to false for `undefined`; the
claim (and the source's own comment) says such a tab is not a candidate. -/
theorem candidateFilter_undef_bug :
    candidateFilter settingsC4 tabC4 = true ∧ tabC4.lastAccessed = JsNum.undef ∧
    tabC4.audible = false := by decide

/-- C5: Monotonic threshold: a tab whose
`lastAccessed + minInactiveMilliseconds` is at least `now` never appears
in the returned close-set. -/
theorem monotonic_threshold {now : ℤ} {s : Settings} {tabs : List Tab} {t : Tab}
    (h : jsGe (jsAddInt t.lastAccessed s.minInactiveMilliseconds) (.finite now) = true) :
    t ∉ (tabsToClose now s tabs).tabsToClose := by
  intro hmem
  have h2 := (global_close_mem hmem).2.2.2
  rw [nowCloseableTest] at h2
  have h3 := not_jsGe_of_jsLt h2
  rw [h] at h3
  simp at h3

/-- C5, instantiated: a tab whose threshold is still in the future is not
closed. -/
theorem monotonic_threshold_witness :
    tabC5 ∉ (tabsToClose 1000 settingsC5 [tabC5]).tabsToClose :=
  @monotonic_threshold 1000 settingsC5 [tabC5] tabC5 (by decide)

/-- C7 (code bug): with budget 1 and two now-closeable candidates of
timestamps 10 and 3 in the same window, the engine closes the tab with
`lastAccessed` 10 rather than the smaller 3, because a third tab with
`lastAccessed` undefined passes the filter and derails the boolean-comparator
sort; the claim says the tab with the smaller `lastAccessed` is chosen. -/
theorem priority_bug :
    (tabsToClose 100 settingsC7 [tabC7a, tabC7b, tabC7u, tabC7c]).tabsToClose = [tabC7a] ∧
    nowCloseableTest 100 settingsC7 tabC7a = true ∧
    nowCloseableTest 100 settingsC7 tabC7c = true ∧
    jsLt tabC7c.lastAccessed tabC7a.lastAccessed = true ∧
    (([tabC7a, tabC7b, tabC7u, tabC7c].filter (fun t => !t.pinned)).length : ℤ) -
      settingsC7.minTabsCount = 1 := by decide

/-- C8: Unknown `lastAccessed` handling: every tab in the returned
close-set has a known finite timestamp (so a tab with `lastAccessed`
absent never appears there), and a finite next-check always equals
`lastAccessed + minInactiveMilliseconds` of a tab whose timestamp is
known and finite (so an unknown-timestamp tab never determines it); the
engine is a total function, so such tabs never cause a failure. -/
theorem unknown_lastAccessed_safe (now : ℤ) (s : Settings) (tabs : List Tab) :
    (∀ t ∈ (tabsToClose now s tabs).tabsToClose, ∃ n, t.lastAccessed = JsNum.finite n) ∧
    (∀ v : ℤ, (tabsToClose now s tabs).nextCheck = .finite v →
      ∃ t, t ∈ tabs ∧ ∃ n, t.lastAccessed = JsNum.finite n ∧
        v = n + s.minInactiveMilliseconds) := by
  constructor
  · intro t ht
    have h2 := (global_close_mem ht).2.2.2
    rw [nowCloseableTest] at h2
    obtain ⟨n, hn, _⟩ := jsLt_add_finite h2
    exact ⟨n, hn⟩
  · intro v hv
    obtain ⟨t, hts, _, _, _, n, hla, hvn, _⟩ := global_nextCheck_finite hv
    exact ⟨t, hts, n, hla, hvn⟩

/-- C8, instantiated: the closed tab has a finite timestamp, and the
finite next-check 1005 is a known tab's threshold. -/
theorem unknown_lastAccessed_safe_witness :
    (∃ n, tabC8a.lastAccessed = JsNum.finite n) ∧
    (∃ t, t ∈ [tabC8a, tabC8b, tabC8c] ∧ ∃ n, t.lastAccessed = JsNum.finite n ∧
      (1005 : ℤ) = n + settingsC8.minInactiveMilliseconds) :=
  ⟨(unknown_lastAccessed_safe 1000 settingsC8 [tabC8a, tabC8b, tabC8c]).1 tabC8a (by decide),
   (unknown_lastAccessed_safe 1000 settingsC8 [tabC8a, tabC8b, tabC8c]).2 1005 (by decide)⟩

/-- C9: Empty input: for every `now` and settings, the engine returns an
empty close-set and `Infinity` on an empty tab list. -/
theorem empty_input_result (now : ℤ) (s : Settings) :
    tabsToClose now s [] = ⟨[], .posInf⟩ := rfl

/-- C10: No past wake-ups: a finite next-check value is at least `now`,
because it comes from a candidate with
`lastAccessed + minInactiveMilliseconds >= now`. -/
theorem no_past_wake {now : ℤ} {s : Settings} {tabs : List Tab} {v : ℤ}
    (h : (tabsToClose now s tabs).nextCheck = .finite v) : now ≤ v := by
  obtain ⟨t, _, _, _, _, n, _, _, hnv⟩ := global_nextCheck_finite h
  exact hnv

/-- C10, instantiated at a concrete input with finite next-check 1105. -/
theorem no_past_wake_witness : (1000 : ℤ) ≤ 1105 :=
  @no_past_wake 1000 settingsC10 [tabC10a, tabC10b] 1105 (by decide)

/-- C6 counterexample: with `maxHistorySize = 0` the accumulation step is
skipped entirely, so a non-empty old history is returned unchanged rather
than replaced by the empty log that
`(closedRecords ++ oldHistory).truncate(0)` would give; in particular the
bound `length <= maxHistorySize` fails at this input. -/
theorem history_zero_cex :
    updateHistory settingsC6zero [] [recC6] = some [recC6] ∧
    ([recC6] : List ClosedPageInfo) ≠ [] ∧
    ¬((([recC6] : List ClosedPageInfo).length : ℤ) ≤ settingsC6zero.maxHistorySize) := by
  decide

/-- C6 (amended): whenever the accumulation step succeeds, if
`maxHistorySize > 0` the updated history is exactly the saveable closed
records prepended to the old history and truncated to `maxHistorySize`
entries (newest first, oldest dropped), so its length is at most
`maxHistorySize`; if `maxHistorySize <= 0` the step is a no-op and the
history is returned unchanged (hence it stays empty when it was empty). -/
theorem history_accumulation_amended {s : Settings} {closed : List Tab}
    {old h : List ClosedPageInfo}
    (hupd : updateHistory s closed old = some h) :
    (0 < s.maxHistorySize →
      ∃ saved, filterSaveable closed = some saved ∧
        h = ((saved.map toClosedPageInfo) ++ old).take s.maxHistorySize.toNat ∧
        (h.length : ℤ) ≤ s.maxHistorySize) ∧
    (s.maxHistorySize ≤ 0 → h = old) := by
  rw [updateHistory] at hupd
  split at hupd
  · rename_i hpos
    cases hfs : filterSaveable closed with
    | none =>
      rw [hfs] at hupd
      cases hupd
    | some saved =>
      rw [hfs] at hupd
      simp only [Option.some.injEq] at hupd
      refine ⟨fun _ => ⟨saved, rfl, hupd.symm, ?_⟩, fun hneg => absurd hpos (not_lt.mpr hneg)⟩
      rw [← hupd]
      have h1 := List.length_take_le s.maxHistorySize.toNat
        ((saved.map toClosedPageInfo) ++ old)
      omega
  · rename_i hneg
    have hold := Option.some_inj.mp hupd
    exact ⟨fun hpos => absurd hpos hneg, fun _ => hold.symm⟩

/-- C6 amended, instantiated: one saveable closed tab prepended to a
one-entry history under capacity 2. -/
theorem history_accumulation_amended_witness :
    ∃ saved, filterSaveable [tabC6] = some saved ∧
      ([toClosedPageInfo tabC6, recC6] =
        ((saved.map toClosedPageInfo) ++ [recC6]).take settingsC6two.maxHistorySize.toNat) ∧
      ((([toClosedPageInfo tabC6, recC6] : List ClosedPageInfo).length : ℤ) ≤
        settingsC6two.maxHistorySize) :=
  (@history_accumulation_amended settingsC6two [tabC6] [recC6]
    [toClosedPageInfo tabC6, recC6] (by decide)).1 (by decide)
